import Mathlib

/-!  Verification of the hamster command-line reporter (hamster-cli.py).

The development shallowly embeds the algorithmic core of the script:
the word wrapper, the per-fact display formatting, the time-range
defaulting done by `list`/`search`, and the tabular report renderer
with its category summary.  Python strings are Lean `String`s (lists of
characters), Python `datetime` values are records of numeric fields,
`timedelta` values are minute counts, and the printed report is the
ordered list of emitted lines. -/

namespace Hamster

/-! ## Python string primitives

Models of the Python `str` operations the script uses: `str.split()`
(split on whitespace runs, dropping empties), `str.strip()`, and
`sep.join(...)`. -/

/-- NoWS l: no character of l is whitespace. -/
def NoWS (l : List Char) : Prop := ∀ c ∈ l, c.isWhitespace = false

/-- wordsAux cs acc: worker for Python str.split(); acc holds the
current in-progress word, reversed. -/
def wordsAux : List Char → List Char → List (List Char)
  | [], acc => if acc = [] then [] else [acc.reverse]
  | c :: cs, acc =>
    if c.isWhitespace then
      (if acc = [] then [] else [acc.reverse]) ++ wordsAux cs []
    else
      wordsAux cs (c :: acc)

/-- pySplit s: model of Python s.split() — maximal whitespace-free runs. -/
def pySplit (s : String) : List String :=
  (wordsAux s.data []).map String.mk

/-- pyStripL l: model of Python str.strip() on a character list. -/
def pyStripL (l : List Char) : List Char :=
  ((l.dropWhile Char.isWhitespace).reverse.dropWhile Char.isWhitespace).reverse

/-- pyStrip s: model of Python s.strip(). -/
def pyStrip (s : String) : String := String.mk (pyStripL s.data)

/-- pyJoin sep xs: model of Python sep.join(xs). -/
def pyJoin (sep : String) : List String → String
  | [] => ""
  | [x] => x
  | x :: y :: xs => x ++ sep ++ pyJoin sep (y :: xs)

/-! ## word_wrap (hamster-cli.py lines 46-59) -/

/-- wrapStep: one iteration of the word_wrap loop body.  The state is
(lines, cur_line); Python's `len("%s %s" % (cur_line, word))` is the
length of `cur_line ++ " " ++ word`, and the `.strip()` is `pyStrip`. -/
def wrapStep (max_len : Nat) (st : List String × String) (word : String) :
    List String × String :=
  if (st.2 ++ " " ++ word).length < max_len then
    (st.1, pyStrip (st.2 ++ " " ++ word))
  else if st.2 = "" then
    (st.1, word)
  else
    (st.1 ++ [st.2], word)

/-- word_wrap: the primitive word wrapper of hamster-cli.py. -/
def word_wrap (line : String) (max_len : Nat) : List String :=
  let r := (pySplit line).foldl (wrapStep max_len) ([], "")
  if r.2 = "" then r.1 else r.1 ++ [r.2]

/-! ## Dates, times and durations -/

/-- Date: model of Python datetime.date. -/
structure Date where
  year : Nat
  month : Nat
  day : Nat

/-- DateTime: model of Python datetime.datetime at second granularity
(the script never formats or sets sub-second fields). -/
structure DateTime where
  year : Nat
  month : Nat
  day : Nat
  hour : Nat
  minute : Nat
  second : Nat

/-- combine d: model of dt.datetime.combine(d, dt.time()), i.e. midnight of d. -/
def combine (d : Date) : DateTime := ⟨d.year, d.month, d.day, 0, 0, 0⟩

/-- replaceEndOfDay t: model of t.replace(hour=23, minute=59, second=59). -/
def replaceEndOfDay (t : DateTime) : DateTime :=
  ⟨t.year, t.month, t.day, 23, 59, 59⟩

/-- resolveRange: the defaulting done in HamsterCli.list / search / export
(hamster-cli.py lines 283-284): `start_time or` midnight-today, then
`end_time or start_time.replace(hour=23, minute=59, second=59)`.
The results of dt.Range.parse are passed in as the two options
(datetime objects are always truthy in Python, so `or` is `getD`). -/
def resolveRange (today : Date) (parsed_start parsed_end : Option DateTime) :
    DateTime × DateTime :=
  let start_time := parsed_start.getD (combine today)
  let end_time := parsed_end.getD (replaceEndOfDay start_time)
  (start_time, end_time)

/-- dtLe a b: chronological order on DateTime (lexicographic by field). -/
def dtLe (a b : DateTime) : Prop :=
  a.year < b.year ∨ (a.year = b.year ∧
    (a.month < b.month ∨ (a.month = b.month ∧
      (a.day < b.day ∨ (a.day = b.day ∧
        (a.hour < b.hour ∨ (a.hour = b.hour ∧
          (a.minute < b.minute ∨ (a.minute = b.minute ∧
            a.second ≤ b.second)))))))))

/-- dateTriple t: model of t.date(). -/
def dateTriple (t : DateTime) : Nat × Nat × Nat := (t.year, t.month, t.day)

/-- print_with_date: hamster-cli.py line 327,
`start_time.date() != end_time.date()`. -/
def print_with_date (start_time end_time : DateTime) : Bool :=
  decide (dateTriple start_time ≠ dateTriple end_time)

/-- pad2 n: decimal rendering of n zero-padded to width 2 (%H, %M, %m, %d). -/
def pad2 (n : Nat) : String := if n < 10 then "0" ++ toString n else toString n

/-- pad4 n: decimal rendering of n zero-padded to width 4 (%Y). -/
def pad4 (n : Nat) : String :=
  if n < 10 then "000" ++ toString n
  else if n < 100 then "00" ++ toString n
  else if n < 1000 then "0" ++ toString n
  else toString n

/-- strftime: model of Python datetime.strftime for the two format
strings used by fact_dict, picked by the with_date flag:
true is "%Y-%m-%d %H:%M" and false is "%H:%M". -/
def strftime (with_date : Bool) (t : DateTime) : String :=
  if with_date then
    pad4 t.year ++ "-" ++ pad2 t.month ++ "-" ++ pad2 t.day ++ " " ++
      pad2 t.hour ++ ":" ++ pad2 t.minute
  else
    pad2 t.hour ++ ":" ++ pad2 t.minute

/-- Modelled from the spec: DurationFormatter, the `format()` method of
hamster.lib's timedelta, whose code is not under src/.  Per the spec it
renders the verbose HhMM notation, e.g. "1h05", with zero as "0h00".
Durations are modelled as whole minute counts. -/
def formatDelta (minutes : Nat) : String :=
  toString (minutes / 60) ++ "h" ++ pad2 (minutes % 60)

/-! ## Facts and their display projection (fact_dict, lines 62-87) -/

/-- Fact: the read-only fact record consumed by the reporter.  delta is
the duration in minutes. -/
structure Fact where
  start_time : DateTime
  end_time : Option DateTime
  delta : Nat
  activity : String
  category : String
  tags : List String
  description : String

/-- DisplayRow: the dictionary built by fact_dict.  The Python key
'end' is spelled end_ because `end` is reserved in Lean. -/
structure DisplayRow where
  start : String
  end_ : String
  duration : String
  activity : String
  category : String
  tags : String
  description : String

/-- fact_dict: hamster-cli.py lines 62-87.  `now` is the wall clock
read by dt.datetime.now(); the source assigns it to end_date in the
absent-end branch and then discards it, which the embedding mirrors
with an unused let. -/
def fact_dict (now : DateTime) (fact_data : Fact) (with_date : Bool) : DisplayRow :=
  let fmt := with_date
  ⟨ strftime fmt fact_data.start_time
  , (match fact_data.end_time with
     | some e => strftime fmt e
     | none =>
        let _end_date := now
        "")
  , formatDelta fact_data.delta
  , fact_data.activity
  , fact_data.category
  , (match fact_data.tags with
     | [] => ""
     | t :: ts => pyJoin " " ((t :: ts).map (fun tag => "#" ++ tag)))
  , fact_data.description ⟩

/-! ## The report renderer (HamsterCli._list, lines 312-377) -/

/-- Col: the fixed column set of the table (line 329). -/
inductive Col where
  | start
  | end_
  | duration
  | activity
  | category

/-- headers: the localized column labels (lines 317-323); the
translation lookup `_` is the identity here. -/
def headers : Col → String
  | Col.start => "Start"
  | Col.end_ => "End"
  | Col.duration => "Duration"
  | Col.activity => "Activity"
  | Col.category => "Category"

/-- field r c: look up column c of a display row. -/
def field (r : DisplayRow) : Col → String
  | Col.start => r.start
  | Col.end_ => r.end_
  | Col.duration => r.duration
  | Col.activity => r.activity
  | Col.category => r.category

/-- cols: the column order of line 329. -/
def cols : List Col := [Col.start, Col.end_, Col.duration, Col.activity, Col.category]

/-- widths: lines 332-336 — start from the header label length and take
the max with every row's formatted field length, column-wise. -/
def widths (now : DateTime) (facts : List Fact) (pwd : Bool) (col : Col) : Nat :=
  facts.foldl (fun acc f => max acc (field (fact_dict now f pwd) col).length)
    (headers col).length

/-- padTo s n: Python format spec "{x: <n}" — left justify, pad with
spaces to width n, never truncate. -/
def padTo (s : String) (n : Nat) : String :=
  s ++ String.mk (List.replicate (n - s.length) ' ')

/-- fact_line: lines 338-339 — the five padded columns joined by " | ". -/
def fact_line (w : Col → Nat) (r : Col → String) : String :=
  pyJoin " | " (cols.map (fun c => padTo (r c) (w c)))

/-- factBlock: the lines printed for one fact inside the loop of lines
348-362 — the table row, then the wrapped description and tag lines,
each indented four spaces. -/
def factBlock (now : DateTime) (w : Col → Nat) (pwd : Bool) (f : Fact) : List String :=
  let pretty := fact_dict now f pwd
  [fact_line w (field pretty)]
    ++ (if pretty.description = "" then []
        else (word_wrap pretty.description 76).map (fun l => "    " ++ l))
    ++ (if pretty.tags = "" then []
        else (word_wrap pretty.tags 76).map (fun l => "    " ++ l))

/-- bump m c d: `by_cat.setdefault(cat, timedelta(0)); by_cat[cat] += delta`
on an insertion-ordered association list. -/
def bump : List (String × Nat) → String → Nat → List (String × Nat)
  | [], c, d => [(c, d)]
  | (c0, d0) :: rest, c, d =>
    if c0 = c then (c0, d0 + d) :: rest else (c0, d0) :: bump rest c d

/-- by_cat: lines 347-351 — accumulate each fact's delta under its
category, the empty category mapped to "Unsorted" (Python
`fact.category or _("Unsorted")`). -/
def by_cat (facts : List Fact) : List (String × Nat) :=
  facts.foldl
    (fun m f => bump m (if f.category = "" then "Unsorted" else f.category) f.delta)
    []

/-- insertDesc: insert into a descending-by-duration list, before the
first entry of smaller or equal duration.  sortDesc processes the facts
front to back, so p precedes every entry of the sorted tail in the
original order, and placing it before equal-duration entries realizes
Python's stable sorted with key=duration, reverse=True — ties stay in
first-encountered order. -/
def insertDesc (p : String × Nat) : List (String × Nat) → List (String × Nat)
  | [] => [p]
  | q :: rest => if q.2 ≤ p.2 then p :: q :: rest else q :: insertDesc p rest

/-- sortDesc: model of `sorted(by_cat.items(), key=lambda x: x[1], reverse=True)`,
a stable descending sort on the duration. -/
def sortDesc : List (String × Nat) → List (String × Nat)
  | [] => []
  | p :: rest => insertDesc p (sortDesc rest)

/-- catPairs: the category/duration pairs in output order (line 368). -/
def catPairs (facts : List Fact) : List (String × Nat) := sortDesc (by_cat facts)

/-- cats: line 369 — `"{}: {}".format(cat, duration.format())` per pair. -/
def cats (facts : List Fact) : List String :=
  (catPairs facts).map (fun p => p.1 ++ ": " ++ formatDelta p.2)

/-- total_duration: lines 367-370 — sum of the per-category totals,
accumulated while walking the sorted pairs. -/
def total_duration (facts : List Fact) : Nat :=
  (catPairs facts).foldl (fun acc p => acc + p.2) 0

/-- renderList: the full sequence of lines printed by HamsterCli._list
(lines 343-376).  print() with no argument is the empty line;
`print("Total: ", x)` joins its two arguments with the default
separator " ", hence the extra space in the total line. -/
def renderList (now start_time end_time : DateTime) (facts : List Fact) : List String :=
  let pwd := print_with_date start_time end_time
  let w := fun c => widths now facts pwd c
  let row_width := (cols.map (fun c => w c + 3)).sum
  [""]
    ++ [fact_line w headers]
    ++ [String.mk (List.replicate (min row_width 80) '-')]
    ++ (facts.map (factBlock now w pwd)).flatten
    ++ [String.mk (List.replicate (min row_width 80) '-')]
    ++ word_wrap (pyJoin ", " (cats facts)) 80
    ++ ["Total: " ++ " " ++ formatDelta (total_duration facts)]
    ++ [""]

/-! ## Basic String facts -/

/-- strData_append: String.append concatenates the character lists. -/
theorem strData_append (s t : String) : (s ++ t).data = s.data ++ t.data := rfl

/-- strLength_data: a String's length is the length of its character list. -/
theorem strLength_data (s : String) : s.length = s.data.length := rfl

/-- strMk_data: rebuilding a String from its data is the identity. -/
theorem strMk_data (s : String) : String.mk s.data = s := rfl

/-- str_eq_empty: a String with empty data is the empty string. -/
theorem str_eq_empty {s : String} (h : s.data = []) : s = "" := by
  cases s with
  | mk d => simp only at h; rw [h]

/-! ## C1 and C2: time-range resolution -/

/-- C1: time-range resolution defaulting — with zero parsed expressions
the resolved range is (today 00:00:00, today 23:59:59); with exactly one,
it becomes the start and the end is the start's own calendar day at
23:59:59. -/
theorem range_defaulting (today : Date) (s : DateTime) :
    resolveRange today none none
      = (⟨today.year, today.month, today.day, 0, 0, 0⟩,
         ⟨today.year, today.month, today.day, 23, 59, 59⟩)
    ∧ resolveRange today (some s) none
      = (s, ⟨s.year, s.month, s.day, 23, 59, 59⟩) := by
  constructor <;> rfl

/-- C2: for every range produced by the defaulting logic with zero or one
parsed expression (the one expression being any well-formed datetime, so
in particular the result of the relative "-N" form), start <= end holds
chronologically. -/
theorem range_start_le_end (today : Date) (s : DateTime)
    (hs : s.hour ≤ 23 ∧ s.minute ≤ 59 ∧ s.second ≤ 59) :
    dtLe (resolveRange today none none).1 (resolveRange today none none).2
    ∧ dtLe (resolveRange today (some s) none).1
        (resolveRange today (some s) none).2 := by
  obtain ⟨h1, h2, h3⟩ := hs
  refine ⟨?_, ?_⟩ <;>
    · simp [resolveRange, Option.getD, combine, replaceEndOfDay, dtLe, h1, h2, h3]
      try omega

/-- range_start_le_end_witness: the C2 invariant evaluated at a concrete
today and a concrete single parsed start. -/
theorem range_start_le_end_witness :
    dtLe (resolveRange ⟨2012, 8, 1⟩ none none).1
        (resolveRange ⟨2012, 8, 1⟩ none none).2
    ∧ dtLe (resolveRange ⟨2012, 8, 1⟩ (some ⟨2012, 8, 30, 10, 30, 0⟩) none).1
        (resolveRange ⟨2012, 8, 1⟩ (some ⟨2012, 8, 30, 10, 30, 0⟩) none).2 :=
  range_start_le_end ⟨2012, 8, 1⟩ ⟨2012, 8, 30, 10, 30, 0⟩ (by decide)

/-! ## C3: column widths -/

/-- foldl_max_eq: folding max from an initial value computes the max of
the initial value and the maximum of the list. -/
theorem foldl_max_eq (l : List Nat) : ∀ a : Nat,
    l.foldl max a = max a (l.foldr max 0) := by
  induction l with
  | nil => intro a; simp
  | cons x xs ih =>
    intro a
    simp only [List.foldl_cons, List.foldr_cons, ih (max a x), Nat.max_assoc]

/-- C3: each rendered column width equals the maximum of the header label
length and the formatted field lengths of that column over all rows,
independently per column. -/
theorem widths_are_max (now : DateTime) (facts : List Fact) (pwd : Bool) (col : Col) :
    widths now facts pwd col
      = max (headers col).length
          ((facts.map (fun f => (field (fact_dict now f pwd) col).length)).foldr max 0) := by
  unfold widths
  rw [← List.foldl_map (fun f => (field (fact_dict now f pwd) col).length) max facts]
  exact foldl_max_eq _ _

/-! ## Word-level machinery for word_wrap (C5 and C6) -/

/-- GoodW x: x is a word as produced by pySplit — nonempty and
whitespace-free. -/
def GoodW (x : String) : Prop := x.data ≠ [] ∧ NoWS x.data

/-- GoodWs ws: every entry is a nonempty whitespace-free word. -/
def GoodWs (ws : List (List Char)) : Prop := ∀ l ∈ ws, l ≠ [] ∧ NoWS l

/-- joinW ws: the words joined by single spaces, at character level. -/
def joinW : List (List Char) → List Char
  | [] => []
  | [w] => w
  | w :: y :: ws => w ++ ' ' :: joinW (y :: ws)

/-- noWS_reverse: reversal preserves whitespace-freeness. -/
theorem noWS_reverse {l : List Char} (h : NoWS l) : NoWS l.reverse :=
  fun c hc => h c (List.mem_reverse.mp hc)

/-- dropWhile_noWS: dropping leading whitespace from a whitespace-free
list is the identity. -/
theorem dropWhile_noWS {l : List Char} (h : NoWS l) :
    l.dropWhile Char.isWhitespace = l := by
  cases l with
  | nil => rfl
  | cons a t => simp [List.dropWhile_cons, h a (by simp)]

/-- dropWhile_cons_of_head: a list with a non-whitespace head is
unchanged by dropWhile isWhitespace. -/
theorem dropWhile_cons_of_head {c : Char} {l : List Char}
    (h : c.isWhitespace = false) :
    (c :: l).dropWhile Char.isWhitespace = c :: l := by
  simp [List.dropWhile_cons, h]

/-- pyStripL_noWS: stripping a whitespace-free list is the identity. -/
theorem pyStripL_noWS {l : List Char} (h : NoWS l) : pyStripL l = l := by
  unfold pyStripL
  rw [dropWhile_noWS h, dropWhile_noWS (noWS_reverse h), List.reverse_reverse]

/-- pyStripL_space: stripping a single leading space from a
whitespace-free word yields the word. -/
theorem pyStripL_space {l : List Char} (h : NoWS l) : pyStripL (' ' :: l) = l := by
  unfold pyStripL
  have h1 : (' ' :: l).dropWhile Char.isWhitespace = l.dropWhile Char.isWhitespace := by
    simp [List.dropWhile_cons]
  rw [h1, dropWhile_noWS h, dropWhile_noWS (noWS_reverse h), List.reverse_reverse]

/-- joinW_head: a nonempty join of good words starts with a
non-whitespace character. -/
theorem joinW_head {ws : List (List Char)} (h : GoodWs ws) (hne : ws ≠ []) :
    ∃ c t, joinW ws = c :: t ∧ c.isWhitespace = false := by
  match ws with
  | [] => exact absurd rfl hne
  | w :: ws' =>
    obtain ⟨hw, hnws⟩ := h w (by simp)
    match w, hw with
    | [], hw => exact absurd rfl hw
    | c :: t0, _ =>
      have hc : c.isWhitespace = false := hnws c (by simp)
      match ws' with
      | [] => exact ⟨c, t0, rfl, hc⟩
      | y :: ws'' => exact ⟨c, t0 ++ ' ' :: joinW (y :: ws''), by simp [joinW], hc⟩

/-- joinW_last: a nonempty join of good words ends with a
non-whitespace character. -/
theorem joinW_last {ws : List (List Char)} (h : GoodWs ws) (hne : ws ≠ []) :
    ∃ c t, (joinW ws).reverse = c :: t ∧ c.isWhitespace = false := by
  induction ws with
  | nil => exact absurd rfl hne
  | cons w ws' ih =>
    match ws' with
    | [] =>
      obtain ⟨hw, hnws⟩ := h w (by simp)
      match hrev : w.reverse with
      | [] => exact absurd (List.reverse_eq_nil_iff.mp hrev) hw
      | c :: t =>
        refine ⟨c, t, by simp [joinW, hrev], ?_⟩
        have hmem : c ∈ w.reverse := by rw [hrev]; simp
        exact hnws c (List.mem_reverse.mp hmem)
    | y :: ws'' =>
      have h' : GoodWs (y :: ws'') := fun l hl => h l (by simp [hl])
      obtain ⟨c, t, hct, hc⟩ := ih h' (by simp)
      refine ⟨c, t ++ ' ' :: w.reverse, ?_, hc⟩
      have hj : joinW (w :: y :: ws'') = w ++ ' ' :: joinW (y :: ws'') := by
        simp [joinW]
      rw [hj]
      simp [List.reverse_append, hct]

/-- joinW_ne_nil: a nonempty join of good words is a nonempty list. -/
theorem joinW_ne_nil {ws : List (List Char)} (h : GoodWs ws) (hne : ws ≠ []) :
    joinW ws ≠ [] := by
  obtain ⟨c, t, hct, _⟩ := joinW_head h hne
  simp [hct]

/-- pyStripL_joinW: a nonempty join of good words is already stripped. -/
theorem pyStripL_joinW {ws : List (List Char)} (h : GoodWs ws) (hne : ws ≠ []) :
    pyStripL (joinW ws) = joinW ws := by
  obtain ⟨c, t, hct, hc⟩ := joinW_head h hne
  obtain ⟨c2, t2, hct2, hc2⟩ := joinW_last h hne
  unfold pyStripL
  rw [hct, dropWhile_cons_of_head hc, ← hct, hct2, dropWhile_cons_of_head hc2,
    ← hct2, List.reverse_reverse]

/-- joinW_append_one: appending one more word extends the join by a
space and the word. -/
theorem joinW_append_one {ws : List (List Char)} (w : List Char) (hne : ws ≠ []) :
    joinW (ws ++ [w]) = joinW ws ++ ' ' :: w := by
  induction ws with
  | nil => exact absurd rfl hne
  | cons x ws' ih =>
    match ws' with
    | [] => simp [joinW]
    | y :: ws'' =>
      calc joinW ((x :: y :: ws'') ++ [w])
          = x ++ ' ' :: joinW ((y :: ws'') ++ [w]) := by simp [joinW]
        _ = x ++ ' ' :: (joinW (y :: ws'') ++ ' ' :: w) := by rw [ih (by simp)]
        _ = joinW (x :: y :: ws'') ++ ' ' :: w := by simp [joinW]

/-- wordsAux_split: splitting across an explicit whitespace character
concatenates the two splits. -/
theorem wordsAux_split {c : Char} (hc : c.isWhitespace = true) :
    ∀ (u acc v : List Char),
      wordsAux (u ++ c :: v) acc = wordsAux u acc ++ wordsAux v [] := by
  intro u
  induction u with
  | nil => intro acc v; simp [wordsAux, hc]
  | cons a u' ih =>
    intro acc v
    by_cases ha : a.isWhitespace = true
    · simp [wordsAux, ha, ih]
    · simp only [Bool.not_eq_true] at ha
      simp [wordsAux, ha, ih]

/-- wordsAux_noWS: splitting a whitespace-free list yields at most the
one word formed with the pending accumulator. -/
theorem wordsAux_noWS : ∀ (l : List Char), NoWS l → ∀ acc,
    wordsAux l acc = if acc.reverse ++ l = [] then [] else [acc.reverse ++ l] := by
  intro l
  induction l with
  | nil => intro _ acc; simp [wordsAux]
  | cons a t ih =>
    intro h acc
    have ha := h a (by simp)
    have h' : NoWS t := fun x hx => h x (by simp [hx])
    simp [wordsAux, ha, ih h' (a :: acc), List.append_assoc]

/-- wordsAux_single: a nonempty whitespace-free list is one word. -/
theorem wordsAux_single {l : List Char} (h : NoWS l) (hne : l ≠ []) :
    wordsAux l [] = [l] := by
  rw [wordsAux_noWS l h []]
  simp [hne]

/-- wordsAux_joinW: splitting a space-join of good words recovers them. -/
theorem wordsAux_joinW {ws : List (List Char)} (h : GoodWs ws) :
    wordsAux (joinW ws) [] = ws := by
  induction ws with
  | nil => rfl
  | cons w ws' ih =>
    match ws' with
    | [] =>
      obtain ⟨hw, hnws⟩ := h w (by simp)
      simp [joinW, wordsAux_single hnws hw]
    | y :: ws'' =>
      obtain ⟨hw, hnws⟩ := h w (by simp)
      have h' : GoodWs (y :: ws'') := fun l hl => h l (by simp [hl])
      have hsp : (' ').isWhitespace = true := by decide
      have hj : joinW (w :: y :: ws'') = w ++ ' ' :: joinW (y :: ws'') := by
        simp [joinW]
      rw [hj, wordsAux_split hsp w [] (joinW (y :: ws'')),
        wordsAux_single hnws hw, ih h']
      rfl

/-- wordsAux_good: every produced word is nonempty and whitespace-free
(provided the pending accumulator is whitespace-free). -/
theorem wordsAux_good : ∀ (l acc : List Char), NoWS acc →
    ∀ x ∈ wordsAux l acc, x ≠ [] ∧ NoWS x := by
  intro l
  induction l with
  | nil =>
    intro acc hacc x hx
    by_cases h0 : acc = []
    · simp [wordsAux, h0] at hx
    · simp only [wordsAux, if_neg h0, List.mem_singleton] at hx
      subst hx
      exact ⟨by simpa using h0, noWS_reverse hacc⟩
  | cons a t ih =>
    intro acc hacc x hx
    by_cases ha : a.isWhitespace = true
    · simp only [wordsAux, ha, if_pos, List.mem_append] at hx
      rcases hx with hx | hx
      · by_cases h0 : acc = []
        · simp [h0] at hx
        · simp only [if_neg h0, List.mem_singleton] at hx
          subst hx
          exact ⟨by simpa using h0, noWS_reverse hacc⟩
      · exact ih [] (fun c hc => absurd hc (List.not_mem_nil c)) x hx
    · simp only [Bool.not_eq_true] at ha
      simp only [wordsAux, ha, Bool.false_eq_true, if_neg, not_false_iff] at hx
      have hacc' : NoWS (a :: acc) := by
        intro c hc
        rcases List.mem_cons.mp hc with rfl | hc
        · exact ha
        · exact hacc c hc
      exact ih (a :: acc) hacc' x hx

/-! ## The word_wrap loop invariant -/

/-- lineWords l: the Python-split word list of a line. -/
def lineWords (s : String) : List (List Char) := wordsAux s.data []

/-- LineOK w l: an emitted line is nonempty and either strictly shorter
than the width or whitespace-free (hence a single word). -/
def LineOK (w : Nat) (l : String) : Prop :=
  l.data ≠ [] ∧ (l.length < w ∨ NoWS l.data)

/-- CurOK w cur: cur_line is a space-join of good words; when nonempty
it is shorter than the width or a single word. -/
def CurOK (w : Nat) (cur : String) : Prop :=
  ∃ ws, GoodWs ws ∧ cur.data = joinW ws ∧
    (ws = [] ∨ cur.length < w ∨ NoWS cur.data)

/-- StOK w st: the word_wrap loop invariant on (lines, cur_line). -/
def StOK (w : Nat) (st : List String × String) : Prop :=
  (∀ l ∈ st.1, LineOK w l) ∧ CurOK w st.2

/-- stW st: all words held by the state, flushed lines first. -/
def stW (st : List String × String) : List (List Char) :=
  (st.1.map lineWords).flatten ++ wordsAux st.2.data []

/-- data_app_space: the character list of a space-separated append. -/
theorem data_app_space (a b : String) :
    (a ++ " " ++ b).data = a.data ++ ' ' :: b.data := by
  have hsp : (" " : String).data = [' '] := rfl
  simp [strData_append, hsp]

/-- wrapStep_ok: one loop iteration preserves the invariant and appends
exactly the new word to the accounted word sequence. -/
theorem wrapStep_ok {w : Nat} {st : List String × String} {x : String}
    (hx : GoodW x) (h : StOK w st) :
    StOK w (wrapStep w st x) ∧ stW (wrapStep w st x) = stW st ++ [x.data] := by
  obtain ⟨hlines, ws, hws, hdata, hdisj⟩ := h
  obtain ⟨hxne, hxnws⟩ := hx
  by_cases hlt : (st.2 ++ " " ++ x).length < w
  · by_cases hws0 : ws = []
    · have hcur : st.2.data = [] := by rw [hdata, hws0]; rfl
      have hstrip : (pyStrip (st.2 ++ " " ++ x)).data = x.data := by
        show pyStripL (st.2 ++ " " ++ x).data = x.data
        rw [data_app_space, hcur]
        exact pyStripL_space hxnws
      constructor
      · refine ⟨?_, [x.data], ?_, ?_, ?_⟩
        · simp only [wrapStep, if_pos hlt]
          exact hlines
        · intro l hl
          simp only [List.mem_singleton] at hl
          subst hl
          exact ⟨hxne, hxnws⟩
        · simp only [wrapStep, if_pos hlt]
          exact hstrip
        · simp only [wrapStep, if_pos hlt]
          exact Or.inr (Or.inr (by rw [hstrip]; exact hxnws))
      · simp only [stW, wrapStep, if_pos hlt, hstrip, hcur]
        rw [wordsAux_single hxnws hxne]
        simp [wordsAux]
    · have hjoin : (st.2 ++ " " ++ x).data = joinW (ws ++ [x.data]) := by
        rw [data_app_space, hdata, joinW_append_one x.data hws0]
      have hgood : GoodWs (ws ++ [x.data]) := by
        intro l hl
        rcases List.mem_append.mp hl with hl | hl
        · exact hws l hl
        · simp only [List.mem_singleton] at hl
          subst hl
          exact ⟨hxne, hxnws⟩
      have hstrip : (pyStrip (st.2 ++ " " ++ x)).data = joinW (ws ++ [x.data]) := by
        show pyStripL (st.2 ++ " " ++ x).data = joinW (ws ++ [x.data])
        rw [hjoin]
        exact pyStripL_joinW hgood (by simp)
      have hlen : (pyStrip (st.2 ++ " " ++ x)).length < w := by
        rw [strLength_data, hstrip, ← hjoin, ← strLength_data]
        exact hlt
      constructor
      · refine ⟨?_, ws ++ [x.data], hgood, ?_, ?_⟩
        · simp only [wrapStep, if_pos hlt]
          exact hlines
        · simp only [wrapStep, if_pos hlt]
          exact hstrip
        · simp only [wrapStep, if_pos hlt]
          exact Or.inr (Or.inl hlen)
      · have e1 : wordsAux (joinW (ws ++ [x.data])) [] = ws ++ [x.data] :=
          wordsAux_joinW hgood
        have e2 : wordsAux st.2.data [] = ws := by
          rw [hdata]; exact wordsAux_joinW hws
        simp only [stW, wrapStep, if_pos hlt, hstrip, e1, e2]
        simp
  · by_cases hemp : st.2 = ""
    · constructor
      · refine ⟨?_, [x.data], ?_, ?_, ?_⟩
        · simp only [wrapStep, if_neg hlt, if_pos hemp]
          exact hlines
        · intro l hl
          simp only [List.mem_singleton] at hl
          subst hl
          exact ⟨hxne, hxnws⟩
        · simp only [wrapStep, if_neg hlt, if_pos hemp]
          rfl
        · simp only [wrapStep, if_neg hlt, if_pos hemp]
          exact Or.inr (Or.inr hxnws)
      · have hcur : st.2.data = [] := by rw [hemp]
        simp only [stW, wrapStep, if_neg hlt, if_pos hemp, hcur]
        rw [wordsAux_single hxnws hxne]
        simp [wordsAux]
    · have hws0 : ws ≠ [] := by
        intro h0
        exact hemp (str_eq_empty (by rw [hdata, h0]; rfl))
      have hlineok : LineOK w st.2 := by
        refine ⟨?_, ?_⟩
        · rw [hdata]
          exact joinW_ne_nil hws hws0
        · rcases hdisj with h0 | h0 | h0
          · exact absurd h0 hws0
          · exact Or.inl h0
          · exact Or.inr h0
      constructor
      · refine ⟨?_, [x.data], ?_, ?_, ?_⟩
        · simp only [wrapStep, if_neg hlt, if_neg hemp]
          intro l hl
          rcases List.mem_append.mp hl with hl | hl
          · exact hlines l hl
          · simp only [List.mem_singleton] at hl
            subst hl
            exact hlineok
        · intro l hl
          simp only [List.mem_singleton] at hl
          subst hl
          exact ⟨hxne, hxnws⟩
        · simp only [wrapStep, if_neg hlt, if_neg hemp]
          rfl
        · simp only [wrapStep, if_neg hlt, if_neg hemp]
          exact Or.inr (Or.inr hxnws)
      · have e2 : lineWords st.2 = ws := by
          show wordsAux st.2.data [] = ws
          rw [hdata]; exact wordsAux_joinW hws
        simp only [stW, wrapStep, if_neg hlt, if_neg hemp]
        rw [wordsAux_single hxnws hxne]
        simp only [List.map_append, List.flatten_append, List.map_cons,
          List.map_nil, List.flatten_cons, List.flatten_nil, e2]
        rw [show wordsAux st.2.data [] = ws from e2]
        simp

/-- wrap_fold: folding wrapStep over good words preserves the invariant
and appends exactly those words to the accounted sequence. -/
theorem wrap_fold {w : Nat} : ∀ (xs : List String), (∀ x ∈ xs, GoodW x) →
    ∀ st, StOK w st →
      StOK w (xs.foldl (wrapStep w) st) ∧
        stW (xs.foldl (wrapStep w) st) = stW st ++ xs.map String.data := by
  intro xs
  induction xs with
  | nil =>
    intro _ st h
    exact ⟨h, by simp⟩
  | cons x xs' ih =>
    intro hgood st h
    obtain ⟨h1, h2⟩ := wrapStep_ok (hgood x (by simp)) h
    obtain ⟨h3, h4⟩ := ih (fun y hy => hgood y (by simp [hy])) (wrapStep w st x) h1
    refine ⟨h3, ?_⟩
    simp only [List.foldl_cons, List.map_cons]
    rw [h4, h2]
    simp

/-- pySplit_good: every pySplit word is nonempty and whitespace-free. -/
theorem pySplit_good (s : String) : ∀ x ∈ pySplit s, GoodW x := by
  intro x hx
  simp only [pySplit, List.mem_map] at hx
  obtain ⟨l, hl, rfl⟩ := hx
  exact wordsAux_good s.data [] (fun c hc => absurd hc (List.not_mem_nil c)) l hl

/-- pySplit_data: the character lists of the pySplit words. -/
theorem pySplit_data (s : String) :
    (pySplit s).map String.data = wordsAux s.data [] := by
  simp only [pySplit, List.map_map]
  rw [show String.data ∘ String.mk = id from rfl, List.map_id]

/-- stOK_init: the initial word_wrap state satisfies the invariant. -/
theorem stOK_init (w : Nat) : StOK w ([], "") :=
  ⟨fun l hl => absurd hl (List.not_mem_nil l),
   ⟨[], fun l hl => absurd hl (List.not_mem_nil l), rfl, Or.inl rfl⟩⟩

/-- word_wrap_invariant: every output line satisfies LineOK, and the
output lines' words concatenate to exactly the input's words. -/
theorem word_wrap_invariant (line : String) (max_len : Nat) :
    (∀ l ∈ word_wrap line max_len, LineOK max_len l) ∧
      ((word_wrap line max_len).map lineWords).flatten = wordsAux line.data [] := by
  obtain ⟨⟨hlines, ws, hws, hdata, hdisj⟩, hstw⟩ :=
    wrap_fold (pySplit line) (pySplit_good line) ([], "") (stOK_init max_len)
  have hstw' :
      stW ((pySplit line).foldl (wrapStep max_len) ([], ""))
        = wordsAux line.data [] := by
    rw [hstw, pySplit_data]
    have h0 : stW ([], "") = [] := rfl
    rw [h0]
    rfl
  simp only [word_wrap]
  by_cases hc : ((pySplit line).foldl (wrapStep max_len) ([], "")).2 = ""
  · rw [if_pos hc]
    constructor
    · exact hlines
    · have hcur : ((pySplit line).foldl (wrapStep max_len) ([], "")).2.data = [] := by
        rw [hc]
      rw [← hstw']
      simp [stW, hcur, wordsAux]
  · rw [if_neg hc]
    have hws0 : ws ≠ [] := by
      intro h0
      exact hc (str_eq_empty (by rw [hdata, h0]; rfl))
    constructor
    · intro l hl
      rcases List.mem_append.mp hl with hl | hl
      · exact hlines l hl
      · simp only [List.mem_singleton] at hl
        subst hl
        refine ⟨by rw [hdata]; exact joinW_ne_nil hws hws0, ?_⟩
        rcases hdisj with h0 | h0 | h0
        · exact absurd h0 hws0
        · exact Or.inl h0
        · exact Or.inr h0
    · rw [← hstw']
      simp [stW, lineWords]

/-! ## C5 and C6 -/

/-- C5: every line produced by word_wrap is strictly shorter than the
width, unless it consists of a single word (its own split is itself)
whose length is at least the width, emitted verbatim. -/
theorem wrapped_line_short (line : String) (max_len : Nat) (l : String)
    (hl : l ∈ word_wrap line max_len) :
    l.length < max_len ∨ (pySplit l = [l] ∧ max_len ≤ l.length) := by
  obtain ⟨hlineok, _⟩ := word_wrap_invariant line max_len
  obtain ⟨hne, hdisj⟩ := hlineok l hl
  by_cases hlen : l.length < max_len
  · exact Or.inl hlen
  · rcases hdisj with h | hnws
    · exact Or.inl h
    · refine Or.inr ⟨?_, Nat.le_of_not_lt hlen⟩
      unfold pySplit
      rw [wordsAux_single hnws hne]
      simp [strMk_data]

/-- wrapped_line_short_witness: C5 applied to a concrete over-long
single word at width 5. -/
theorem wrapped_line_short_witness :
    "abcdefgh".length < 5 ∨ (pySplit "abcdefgh" = ["abcdefgh"] ∧ 5 ≤ "abcdefgh".length) :=
  wrapped_line_short "abcdefgh" 5 "abcdefgh" (by decide)

/-- pyJoin_space_words: splitting a single-space join concatenates the
splits of the parts. -/
theorem pyJoin_space_words : ∀ ls : List String,
    wordsAux (pyJoin " " ls).data [] = (ls.map lineWords).flatten := by
  intro ls
  induction ls with
  | nil => rfl
  | cons x ls' ih =>
    match ls' with
    | [] => simp [pyJoin, lineWords]
    | y :: t =>
      have hsp : (' ').isWhitespace = true := by decide
      have hdata : (pyJoin " " (x :: y :: t)).data
          = x.data ++ ' ' :: (pyJoin " " (y :: t)).data := by
        rw [show pyJoin " " (x :: y :: t) = x ++ " " ++ pyJoin " " (y :: t) from rfl,
          data_app_space]
      rw [hdata, wordsAux_split hsp x.data [] (pyJoin " " (y :: t)).data, ih]
      simp [lineWords]

/-- C6: joining word_wrap's output lines with single spaces and
splitting on whitespace reproduces exactly the whitespace-delimited word
sequence of the input; empty input yields an empty sequence of lines. -/
theorem wrap_roundtrip (line : String) (max_len : Nat) :
    pySplit (pyJoin " " (word_wrap line max_len)) = pySplit line
    ∧ word_wrap "" max_len = [] := by
  constructor
  · obtain ⟨_, hwords⟩ := word_wrap_invariant line max_len
    unfold pySplit
    rw [pyJoin_space_words, hwords]
  · rfl

/-! ## C9 and C10: fact_dict -/

/-- C10: fact_dict is a function of the fact and the with_date flag only;
the wall clock read in the absent-end branch never influences the output. -/
theorem fact_dict_ignores_now (now1 now2 : DateTime) (f : Fact) (with_date : Bool) :
    fact_dict now1 f with_date = fact_dict now2 f with_date := by
  cases h : f.end_time <;> simp [fact_dict, h]

/-- C9: the end cell is empty exactly when end_time is absent (never a
rendering of the current time), and a present end_time is formatted with
the date portion exactly when the resolved range spans more than one
calendar day (start.date() differing from end_time.date() of the range). -/
theorem end_cell_spec (now : DateTime) (f : Fact) (rs re : DateTime) :
    (fact_dict now f (print_with_date rs re)).end_
      = (match f.end_time with
         | none => ""
         | some t =>
           if dateTriple rs ≠ dateTriple re then strftime true t
           else strftime false t) := by
  cases h : f.end_time with
  | none => simp [fact_dict, h]
  | some t =>
    simp only [fact_dict, h]
    by_cases hd : dateTriple rs = dateTriple re
    · simp [print_with_date, hd]
    · simp [print_with_date, hd]

/-! ## C7 and C8: category aggregation and totals -/

/-- descOrder a b: b's total does not exceed a's (descending order). -/
def descOrder (a b : String × Nat) : Prop := b.2 ≤ a.2

/-- sumSnd l: the total of all durations in an association list. -/
def sumSnd (l : List (String × Nat)) : Nat := (l.map (fun p => p.2)).sum

/-- chain_insertDesc: inserting with insertDesc preserves descending
order. -/
theorem chain_insertDesc (p : String × Nat) :
    ∀ l : List (String × Nat),
      List.Chain' descOrder l → List.Chain' descOrder (insertDesc p l) := by
  intro l
  induction l with
  | nil => intro _; simp [insertDesc]
  | cons q rest ih =>
    intro h
    by_cases hq : q.2 ≤ p.2
    · simp only [insertDesc, if_pos hq]
      exact List.chain'_cons.mpr ⟨hq, h⟩
    · simp only [insertDesc, if_neg hq]
      have hrest : List.Chain' descOrder rest := (List.chain'_cons'.mp h).2
      refine List.chain'_cons'.mpr ⟨?_, ih hrest⟩
      intro b hb
      cases rest with
      | nil =>
        simp only [insertDesc, List.head?_cons, Option.mem_def, Option.some.injEq] at hb
        subst hb
        show p.2 ≤ q.2
        omega
      | cons r rs =>
        by_cases hr : r.2 ≤ p.2
        · simp only [insertDesc, if_pos hr, List.head?_cons, Option.mem_def,
            Option.some.injEq] at hb
          subst hb
          show p.2 ≤ q.2
          omega
        · simp only [insertDesc, if_neg hr, List.head?_cons, Option.mem_def,
            Option.some.injEq] at hb
          subst hb
          exact (List.chain'_cons'.mp h).1 r (by simp)

/-- chain_sortDesc: sortDesc produces a descending list. -/
theorem chain_sortDesc : ∀ l : List (String × Nat),
    List.Chain' descOrder (sortDesc l) := by
  intro l
  induction l with
  | nil => simp [sortDesc]
  | cons p rest ih => exact chain_insertDesc p (sortDesc rest) ih

/-- bump_sum: bump adds exactly its delta to the aggregate total. -/
theorem bump_sum (m : List (String × Nat)) (c : String) (d : Nat) :
    sumSnd (bump m c d) = sumSnd m + d := by
  induction m with
  | nil => simp [bump, sumSnd]
  | cons q rest ih =>
    obtain ⟨c0, d0⟩ := q
    by_cases hc : c0 = c
    · simp only [bump, if_pos hc, sumSnd, List.map_cons, List.sum_cons]
      omega
    · simp only [bump, if_neg hc, sumSnd, List.map_cons, List.sum_cons] at *
      omega

/-- insertDesc_sum: insertion preserves the aggregate total. -/
theorem insertDesc_sum (p : String × Nat) (l : List (String × Nat)) :
    sumSnd (insertDesc p l) = p.2 + sumSnd l := by
  induction l with
  | nil => simp [insertDesc, sumSnd]
  | cons q rest ih =>
    by_cases hq : q.2 ≤ p.2
    · simp only [insertDesc, if_pos hq, sumSnd, List.map_cons, List.sum_cons]
    · simp only [insertDesc, if_neg hq, sumSnd, List.map_cons, List.sum_cons] at *
      omega

/-- sortDesc_sum: sorting preserves the aggregate total. -/
theorem sortDesc_sum : ∀ l : List (String × Nat),
    sumSnd (sortDesc l) = sumSnd l := by
  intro l
  induction l with
  | nil => rfl
  | cons p rest ih =>
    show sumSnd (insertDesc p (sortDesc rest)) = sumSnd (p :: rest)
    rw [insertDesc_sum, ih]
    simp [sumSnd]

/-- by_cat_sum_aux: the accumulation loop adds exactly the facts' deltas
to the aggregate total. -/
theorem by_cat_sum_aux : ∀ (facts : List Fact) (m : List (String × Nat)),
    sumSnd (facts.foldl
        (fun m f => bump m (if f.category = "" then "Unsorted" else f.category) f.delta)
        m)
      = sumSnd m + (facts.map (fun f => f.delta)).sum := by
  intro facts
  induction facts with
  | nil => intro m; simp
  | cons f fs ih =>
    intro m
    simp only [List.foldl_cons, List.map_cons, List.sum_cons]
    rw [ih, bump_sum]
    omega

/-- by_cat_sum: the per-category totals sum to the facts' deltas. -/
theorem by_cat_sum (facts : List Fact) :
    sumSnd (by_cat facts) = (facts.map (fun f => f.delta)).sum := by
  have h := by_cat_sum_aux facts []
  simpa [by_cat, sumSnd] using h

/-- foldl_add_sum: the running-total fold computes the aggregate sum. -/
theorem foldl_add_sum : ∀ (l : List (String × Nat)) (a : Nat),
    l.foldl (fun acc p => acc + p.2) a = a + sumSnd l := by
  intro l
  induction l with
  | nil => intro a; simp [sumSnd]
  | cons p rest ih =>
    intro a
    simp only [List.foldl_cons]
    rw [ih (a + p.2)]
    simp only [sumSnd, List.map_cons, List.sum_cons]
    omega

/-- dtEx: a fixed example instant. -/
def dtEx : DateTime := ⟨2012, 8, 1, 9, 0, 0⟩

/-- exFact cat d: an example fact with the given category and delta. -/
def exFact (cat : String) (d : Nat) : Fact :=
  ⟨dtEx, some dtEx, d, "code", cat, [], ""⟩

/-- exFacts: the spec's worked category-aggregation example —
(Work, 90min), (Work, 30min), (empty category, 15min). -/
def exFacts : List Fact := [exFact "Work" 90, exFact "Work" 30, exFact "" 15]

/-- exFactsTie: two categories with equal totals, Alpha encountered
first, to exhibit the stable tie-break. -/
def exFactsTie : List Fact := [exFact "Alpha" 30, exFact "Beta" 30]

/-- C7: the category summary maps the empty category to "Unsorted",
accumulates each category's total over all facts, and emits the entries
in descending total order with ties kept in first-encountered order; on
the spec's example it yields "Work: 2h00" before "Unsorted: 0h15". -/
theorem category_summary (facts : List Fact) :
    List.Chain' descOrder (catPairs facts)
    ∧ by_cat exFacts = [("Work", 120), ("Unsorted", 15)]
    ∧ cats exFacts = ["Work: 2h00", "Unsorted: 0h15"]
    ∧ word_wrap (pyJoin ", " (cats exFacts)) 80 = ["Work: 2h00, Unsorted: 0h15"]
    ∧ catPairs exFactsTie = [("Alpha", 30), ("Beta", 30)] :=
  ⟨chain_sortDesc (by_cat facts), by decide, by decide, by decide, by decide⟩

/-- C8 as stated fails on the code: Python's print("Total: ", x) joins
its arguments with a separator space, so zero facts render the line
"Total:  0h00" (two spaces) and no line "Total: 0h00". -/
theorem total_line_counterexample :
    ("Total: 0h00" ∉ renderList dtEx dtEx dtEx [])
    ∧ ("Total: " ++ " " ++ "0h00") ∈ renderList dtEx dtEx dtEx [] := by
  decide

/-- C8 (amended): after the category summaries the report emits the line
"Total: " followed by the print-separator space and the formatted total,
i.e. "Total:  <duration>" with two spaces; the total is the sum of every
category's accumulated total, equivalently the sum of all facts' deltas,
and is zero for zero facts. -/
theorem total_line (now s e : DateTime) (facts : List Fact) :
    total_duration facts = sumSnd (catPairs facts)
    ∧ total_duration facts = (facts.map (fun f => f.delta)).sum
    ∧ ("Total: " ++ " " ++ formatDelta (total_duration facts)) ∈ renderList now s e facts
    ∧ total_duration ([] : List Fact) = 0 := by
  have h1 : total_duration facts = sumSnd (catPairs facts) := by
    unfold total_duration
    rw [foldl_add_sum]
    omega
  refine ⟨h1, ?_, ?_, rfl⟩
  · rw [h1]
    unfold catPairs
    rw [sortDesc_sum, by_cat_sum]
  · simp [renderList]

/-! ## C4: the separator lines -/

/-- sepLine: the dash separator printed by renderList, of length
min(sum of column widths + 3 each, 80). -/
def sepLine (now s e : DateTime) (facts : List Fact) : String :=
  String.mk (List.replicate
    (min ((cols.map (fun c => widths now facts (print_with_date s e) c + 3)).sum) 80) '-')

/-- sepLine_data: the separator's characters. -/
theorem sepLine_data (now s e : DateTime) (facts : List Fact) :
    (sepLine now s e facts).data
      = List.replicate
          (min ((cols.map (fun c => widths now facts (print_with_date s e) c + 3)).sum) 80)
          '-' := rfl

/-- sepLine_length: the separator's length is min(row width, 80). -/
theorem sepLine_length (now s e : DateTime) (facts : List Fact) :
    (sepLine now s e facts).length
      = min ((cols.map (fun c => widths now facts (print_with_date s e) c + 3)).sum) 80 := by
  rw [strLength_data, sepLine_data]
  simp

/-- pipe_mem_pyJoin: joining at least two pieces with " | " puts a pipe
character in the result. -/
theorem pipe_mem_pyJoin (x y : String) (t : List String) :
    '|' ∈ (pyJoin " | " (x :: y :: t)).data := by
  have hd : (" | " : String).data = [' ', '|', ' '] := rfl
  rw [show pyJoin " | " (x :: y :: t) = x ++ " | " ++ pyJoin " | " (y :: t) from rfl,
    strData_append, strData_append, hd]
  simp

/-- fact_line_pipe: every table line contains a pipe character. -/
theorem fact_line_pipe (w : Col → Nat) (r : Col → String) :
    '|' ∈ (fact_line w r).data := by
  unfold fact_line cols
  simp only [List.map_cons, List.map_nil]
  exact pipe_mem_pyJoin _ _ _

/-- factBlock_no_dash: no line of a fact's block is a dash string — the
table row contains a pipe and the wrapped lines start with spaces. -/
theorem factBlock_no_dash (now : DateTime) (w : Col → Nat) (pwd : Bool)
    (f : Fact) (n : Nat) :
    String.mk (List.replicate n '-') ∉ factBlock now w pwd f := by
  intro hmem
  simp only [factBlock, List.mem_append, List.mem_singleton] at hmem
  have hsp : ∀ x : String, "    " ++ x ≠ String.mk (List.replicate n '-') := by
    intro x hx
    have h4 : ' ' ∈ ("    " ++ x).data := by
      rw [strData_append, show ("    " : String).data = [' ', ' ', ' ', ' '] from rfl]
      simp
    rw [hx] at h4
    simp only [List.mem_replicate] at h4
    exact absurd h4.2 (by decide)
  rcases hmem with (h | h) | h
  · have hp := fact_line_pipe w (field (fact_dict now f pwd))
    rw [← h] at hp
    simp only [List.mem_replicate] at hp
    exact absurd hp.2 (by decide)
  · by_cases hd : (fact_dict now f pwd).description = ""
    · simp [hd] at h
    · simp only [if_neg hd, List.mem_map] at h
      obtain ⟨x, _, hx⟩ := h
      exact hsp x hx
  · by_cases hd : (fact_dict now f pwd).tags = ""
    · simp [hd] at h
    · simp only [if_neg hd, List.mem_map] at h
      obtain ⟨x, _, hx⟩ := h
      exact hsp x hx

/-- C4: the report is an empty line, the header row, a dash separator of
length min(sum over the five columns of width+3, 80), the per-fact row
blocks, the same separator again, then the summary lines — so the
separator bounds the data rows on both sides, also when the fact list is
empty, where the two separators are adjacent. -/
theorem separator_lines (now s e : DateTime) (facts : List Fact) :
    ∃ rows : List String,
      renderList now s e facts
        = ["", fact_line (fun c => widths now facts (print_with_date s e) c) headers]
          ++ [sepLine now s e facts]
          ++ rows
          ++ [sepLine now s e facts]
          ++ word_wrap (pyJoin ", " (cats facts)) 80
          ++ ["Total: " ++ " " ++ formatDelta (total_duration facts), ""]
      ∧ (sepLine now s e facts).length
          = min ((cols.map (fun c => widths now facts (print_with_date s e) c + 3)).sum) 80
      ∧ sepLine now s e facts
          ∉ ["", fact_line (fun c => widths now facts (print_with_date s e) c) headers]
      ∧ sepLine now s e facts ∉ rows
      ∧ renderList now s e ([] : List Fact)
          = ["", "Start | End | Duration | Activity | Category",
             String.mk (List.replicate 47 '-'), String.mk (List.replicate 47 '-'),
             "Total: " ++ " " ++ "0h00", ""] := by
  refine ⟨(facts.map (factBlock now
      (fun c => widths now facts (print_with_date s e) c) (print_with_date s e))).flatten,
    ?_, sepLine_length now s e facts, ?_, ?_, ?_⟩
  · simp [renderList, sepLine, List.append_assoc]
  · intro hmem
    simp only [List.mem_cons, List.mem_singleton, List.not_mem_nil, or_false] at hmem
    rcases hmem with h | h
    · have h15 : 15 ≤ (cols.map
          (fun c => widths now facts (print_with_date s e) c + 3)).sum := by
        simp [cols]
        omega
      have hlen := sepLine_length now s e facts
      rw [h] at hlen
      simp only [strLength_data, show ("" : String).data = [] from rfl,
        List.length_nil] at hlen
      omega
    · have hp := fact_line_pipe (fun c => widths now facts (print_with_date s e) c) headers
      rw [← h, sepLine_data] at hp
      simp only [List.mem_replicate] at hp
      exact absurd hp.2 (by decide)
  · intro hmem
    simp only [List.mem_flatten, List.mem_map] at hmem
    obtain ⟨bl, ⟨f, hf, hbl⟩, hmem⟩ := hmem
    rw [← hbl] at hmem
    exact factBlock_no_dash now _ _ f _ hmem
  · rfl

end Hamster
